import Mathlib

/-!
Shallow embedding of `sq-encoder.py` (n-ary category encoder).

The source has three components:

* `NaryEncoder` — mixed-radix codec: `encode(l, l_master)` computes
  `sum(mx ** i * x for i, x in enumerate(l))` with `mx = max(l_master)`,
  stores `[len(l), mx]` in a JSON file; `decode(enc)` loads `(ln, mx)`
  from the file when the in-memory pair is `(0, 0)` and peels digits
  from the most significant position down, then reverses the list.
* `create_qr_code` — bounded retry loop around `pyqrcode.create`,
  classifying rejection messages with two anchored regexes to adapt
  `mode` or `version`.
* `CategoricalEncoder` — zips chosen values (resp. indices) with the
  per-category value lists and applies `list.index` (resp. subscript).

Python specifics modelled explicitly: arbitrary-precision integers are
`Nat`/`Int`; list subscription accepts negative indices (one wrap by
`+ len`); `list.index` and `max([])` raise `ValueError`; reading an
absent JSON file raises `FileNotFoundError` (the spec's
`MissingParameters`); `zip` truncates to the shorter argument.
The JSON parameter file is modelled as an `Option (Nat × Nat)` slot
carried in the codec state.
-/

/-- Python exceptions that the source can raise. `fileNotFound` is the
`FileNotFoundError` from `open` on an absent parameter file, which the
spec names `MissingParameters`; `indexError` is the spec's
`IndexOutOfRange`; `valueError` covers `max()` on an empty sequence and
`list.index` misses (the spec's `ValueNotFound`). -/
inductive PyError where
  | valueError (msg : String)
  | indexError
  | fileNotFound
deriving DecidableEq

/-- State of one `NaryEncoder` object together with its JSON file:
`ln`/`mx` are the in-memory fields (both initialised to `0` by
`__init__`), `slot` is the content of the file at `json_path`
(`none` = the file was never written). -/
structure NaryState where
  ln : Nat
  mx : Nat
  slot : Option (Nat × Nat)
deriving DecidableEq

/-- Python `max` on a list of naturals: raises `ValueError` on `[]`,
otherwise folds binary `max` over the elements. -/
def pyMax : List Nat → Except PyError Nat
  | [] => Except.error (PyError.valueError ("max arg is an empty sequence"))
  | x :: xs => Except.ok (xs.foldl max x)

/-- Python `enumerate`, starting at index `i`. -/
def pyEnumerate (i : Nat) : List Nat → List (Nat × Nat)
  | [] => []
  | x :: xs => (i, x) :: pyEnumerate (i + 1) xs

/-- The comprehension `[self.mx ** i * x for i, x in enumerate(l)]`
followed by `sum`, from `NaryEncoder.encode`. -/
def codeSum (mx : Nat) (l : List Nat) : Nat :=
  ((pyEnumerate 0 l).map (fun p => mx ^ p.1 * p.2)).sum

/-- `NaryEncoder.encode(self, l, l_master)`: sets `self.ln = len(l)` and
`self.mx = max(l_master)`, dumps `[self.ln, self.mx]` to the JSON file,
and returns the weighted sum. The overflow guard in the source is
commented out, so none is modelled. The incoming state is overwritten
wholesale. -/
def NaryEncoder.encode (s : NaryState) (l l_master : List Nat) :
    Except PyError (NaryState × Nat) :=
  match pyMax l_master with
  | Except.error e => Except.error e
  | Except.ok mx =>
      Except.ok (⟨l.length, mx, some (l.length, mx)⟩, codeSum mx l)

/-- The decode loop `for i in range(self.ln - 1, -1, -1)`: at step `i` it
appends `remainder // mx ** i` and replaces `remainder` by
`remainder % mx ** i`.  `decodeLoop mx e n` runs the loop for
`i = n - 1, …, 0` and returns the appended list (most significant digit
first, as in the source before the final `[::-1]`). -/
def decodeLoop (mx : Nat) : Nat → Nat → List Nat
  | _, 0 => []
  | remainder, i + 1 => remainder / mx ^ i :: decodeLoop mx (remainder % mx ^ i) i

/-- `NaryEncoder.decode(self, enc)`: when both in-memory parameters are
`0` it loads `(ln, mx)` from the JSON file (raising `FileNotFoundError`
when no file exists), then runs the digit loop and reverses the result.
The returned pair is (state after the call, decoded list). -/
def NaryEncoder.decode (s : NaryState) (enc : Nat) :
    Except PyError (NaryState × List Nat) :=
  if s.ln = 0 ∧ s.mx = 0 then
    match s.slot with
    | none => Except.error PyError.fileNotFound
    | some (a, b) => Except.ok (⟨a, b, s.slot⟩, (decodeLoop b enc a).reverse)
  else
    Except.ok (s, (decodeLoop s.mx enc s.ln).reverse)

/-! ### Helper lemmas about `pyMax` -/

theorem le_foldl_max_self (xs : List Nat) (x : Nat) : x ≤ xs.foldl max x := by
  induction xs generalizing x with
  | nil => exact Nat.le_refl x
  | cons a as ih => exact Nat.le_trans (Nat.le_max_left x a) (ih (max x a))

theorem le_foldl_max_of_mem (xs : List Nat) (x y : Nat) (h : y ∈ xs) :
    y ≤ xs.foldl max x := by
  induction xs generalizing x with
  | nil => cases h
  | cons a as ih =>
    rcases List.mem_cons.mp h with rfl | hmem
    · exact Nat.le_trans (Nat.le_max_right x y) (le_foldl_max_self as (max x y))
    · exact ih (max x a) hmem

theorem foldl_max_mem (xs : List Nat) (x : Nat) :
    xs.foldl max x = x ∨ xs.foldl max x ∈ xs := by
  induction xs generalizing x with
  | nil => exact Or.inl rfl
  | cons a as ih =>
    rcases ih (max x a) with heq | hmem
    · rcases max_choice x a with hx | ha
      · exact Or.inl (by rw [List.foldl_cons, heq, hx])
      · exact Or.inr (by rw [List.foldl_cons, heq, ha]; exact List.mem_cons_self a as)
    · exact Or.inr (List.mem_cons_of_mem a hmem)

/-! ### Helper lemmas about `codeSum` -/

theorem pyEnumerate_map_pow_sum_succ (r : Nat) (l : List Nat) (i : Nat) :
    ((pyEnumerate (i + 1) l).map (fun p => r ^ p.1 * p.2)).sum =
      r * ((pyEnumerate i l).map (fun p => r ^ p.1 * p.2)).sum := by
  induction l generalizing i with
  | nil => simp [pyEnumerate]
  | cons x xs ih =>
    simp only [pyEnumerate, List.map_cons, List.sum_cons, ih (i + 1)]
    ring

theorem codeSum_nil (r : Nat) : codeSum r [] = 0 := rfl

theorem codeSum_cons (r x : Nat) (xs : List Nat) :
    codeSum r (x :: xs) = x + r * codeSum r xs := by
  simp only [codeSum, pyEnumerate, List.map_cons, List.sum_cons,
    pyEnumerate_map_pow_sum_succ r xs 0, pow_zero, one_mul]

theorem codeSum_lt (r : Nat) (l : List Nat) (h : ∀ x ∈ l, x < r) :
    codeSum r l < r ^ l.length := by
  induction l with
  | nil => simp [codeSum_nil]
  | cons x xs ih =>
    have hx : x < r := h x (List.mem_cons_self x xs)
    have hS : codeSum r xs < r ^ xs.length :=
      ih (fun y hy => h y (List.mem_cons_of_mem x hy))
    rw [codeSum_cons]
    calc x + r * codeSum r xs < r * (codeSum r xs + 1) := by
          rw [Nat.mul_add, Nat.mul_one]; omega
      _ ≤ r * r ^ xs.length := Nat.mul_le_mul_left r hS
      _ = r ^ (x :: xs).length := by rw [List.length_cons, pow_succ, Nat.mul_comm]

theorem codeSum_digit (r : Nat) (l : List Nat) (h : ∀ x ∈ l, x < r)
    (i : Nat) (hi : i < l.length) :
    codeSum r l / r ^ i % r = l.getD i 0 := by
  induction l generalizing i with
  | nil => cases hi
  | cons x xs ih =>
    have hx : x < r := h x (List.mem_cons_self x xs)
    have hr : 0 < r := Nat.lt_of_le_of_lt (Nat.zero_le x) hx
    cases i with
    | zero =>
      rw [codeSum_cons, pow_zero, Nat.div_one, Nat.add_mul_mod_self_left,
        Nat.mod_eq_of_lt hx, List.getD_cons_zero]
    | succ i =>
      have hi' : i < xs.length := by simpa [List.length_cons] using hi
      rw [codeSum_cons, List.getD_cons_succ, pow_succ', ← Nat.div_div_eq_div_mul,
        Nat.add_mul_div_left x (codeSum r xs) hr, Nat.div_eq_of_lt hx, Nat.zero_add]
      exact ih (fun y hy => h y (List.mem_cons_of_mem x hy)) i hi'

theorem decodeLoop_eq (r : Nat) (n : Nat) (e : Nat) (he : e < r ^ n) :
    decodeLoop r e n = (List.range n).reverse.map (fun i => e / r ^ i % r) := by
  induction n generalizing e with
  | zero => simp [decodeLoop]
  | succ n ih =>
    have hr : 0 < r := by
      rcases Nat.eq_zero_or_pos r with h0 | h
      · subst h0; simp [Nat.zero_pow] at he
      · exact h
    have hpow : 0 < r ^ n := Nat.pos_pow_of_pos n hr
    have hhead : e / r ^ n % r = e / r ^ n := by
      apply Nat.mod_eq_of_lt
      rw [Nat.div_lt_iff_lt_mul hpow]
      rw [pow_succ] at he
      exact Nat.lt_of_lt_of_le he (Nat.le_of_eq (Nat.mul_comm _ _))
    have htail : decodeLoop r (e % r ^ n) n =
        (List.range n).reverse.map (fun i => e / r ^ i % r) := by
      rw [ih (e % r ^ n) (Nat.mod_lt e hpow)]
      apply List.map_congr_left
      intro i hi
      have hin : i < n := List.mem_range.mp (List.mem_reverse.mp hi)
      have hdvd : r ^ (i + 1) ∣ r ^ n := pow_dvd_pow r hin
      rw [Nat.div_mod_eq_mod_mul_div, ← pow_succ, Nat.mod_mod_of_dvd e hdvd,
        pow_succ, ← Nat.div_mod_eq_mod_mul_div]
    rw [List.range_succ, List.reverse_append, List.reverse_singleton]
    simp only [List.singleton_append, List.map_cons, decodeLoop, hhead, htail]

theorem range_map_getD (l : List Nat) :
    (List.range l.length).map (fun i => l.getD i 0) = l := by
  induction l with
  | nil => simp
  | cons x xs ih =>
    rw [List.length_cons, List.range_succ_eq_map, List.map_cons, List.map_map]
    have hcomp : ((fun i => (x :: xs).getD i 0) ∘ Nat.succ) = fun i => xs.getD i 0 :=
      funext fun i => rfl
    rw [List.getD_cons_zero, hcomp, ih]

theorem decode_codeSum_roundTrip (r : Nat) (l : List Nat) (h : ∀ x ∈ l, x < r) :
    (decodeLoop r (codeSum r l) l.length).reverse = l := by
  rw [decodeLoop_eq r l.length (codeSum r l) (codeSum_lt r l h),
    ← List.map_reverse, List.reverse_reverse]
  calc (List.range l.length).map (fun i => codeSum r l / r ^ i % r)
      = (List.range l.length).map (fun i => l.getD i 0) := by
        apply List.map_congr_left
        intro i hi
        exact codeSum_digit r l h i (List.mem_range.mp hi)
    _ = l := range_map_getD l

theorem sum_digits_reconstruct (r : Nat) (hr : 0 < r) (n : Nat) (e : Nat)
    (he : e < r ^ n) :
    ((List.range n).map (fun i => e / r ^ i % r * r ^ i)).sum = e := by
  induction n generalizing e with
  | zero =>
    have : e = 0 := Nat.lt_one_iff.mp (by simpa using he)
    simp [this]
  | succ n ih =>
    have hdiv : e / r < r ^ n := by
      rw [Nat.div_lt_iff_lt_mul hr]
      rw [pow_succ] at he
      exact he
    rw [List.range_succ_eq_map, List.map_cons, List.map_map, List.sum_cons]
    have hcongr : (List.range n).map ((fun i => e / r ^ i % r * r ^ i) ∘ Nat.succ) =
        (List.range n).map (fun i => r * (e / r / r ^ i % r * r ^ i)) := by
      apply List.map_congr_left
      intro i _
      simp only [Function.comp]
      rw [pow_succ', ← Nat.div_div_eq_div_mul]
      ring
    rw [hcongr, List.sum_map_mul_left, ih (e / r) hdiv, pow_zero, Nat.div_one,
      Nat.mul_one]
    exact Nat.mod_add_div e r

theorem decode_unset (a b enc : Nat) :
    NaryEncoder.decode ⟨0, 0, some (a, b)⟩ enc =
      Except.ok (⟨a, b, some (a, b)⟩, (decodeLoop b enc a).reverse) := rfl

theorem le_pyMax_of_mem (c0 : Nat) (cs : List Nat) (y : Nat) (h : y ∈ c0 :: cs) :
    y ≤ cs.foldl max c0 := by
  rcases List.mem_cons.mp h with rfl | hm
  · exact le_foldl_max_self cs y
  · exact le_foldl_max_of_mem cs c0 y hm

theorem codeSum_eq_range_sum (r : Nat) (l : List Nat) :
    codeSum r l = ((List.range l.length).map (fun i => l.getD i 0 * r ^ i)).sum := by
  induction l with
  | nil => simp [codeSum_nil]
  | cons x xs ih =>
    rw [codeSum_cons, List.length_cons, List.range_succ_eq_map, List.map_cons,
      List.map_map, List.sum_cons]
    have hcomp : ((fun i => (x :: xs).getD i 0 * r ^ i) ∘ Nat.succ) =
        fun i => r * (xs.getD i 0 * r ^ i) := by
      funext i
      show (x :: xs).getD (i + 1) 0 * r ^ (i + 1) = r * (xs.getD i 0 * r ^ i)
      rw [List.getD_cons_succ, pow_succ']
      ring
    rw [List.getD_cons_zero, pow_zero, hcomp, List.sum_map_mul_left, ih]
    ring

/-- C1: round trip of the mixed-radix codec.  For every non-empty valid
Selection Vector `v` and Cardinality Vector `c` of the same length with
each `v[i] < c[i]`, `encode` succeeds with some persisted state `s'` and
value `e`, and decoding `e` returns `v` — both on the same codec object
(in-memory `(length, radix)` in force) and on a fresh codec that reloads
the pair persisted by that encode. -/
theorem naryCodec_roundTrip (s : NaryState) (v c : List Nat) (hne : v ≠ [])
    (hlen : v.length = c.length) (hvc : ∀ p ∈ v.zip c, p.1 < p.2) :
    ∃ s' e, NaryEncoder.encode s v c = Except.ok (s', e) ∧
      NaryEncoder.decode s' e = Except.ok (s', v) ∧
      NaryEncoder.decode ⟨0, 0, s'.slot⟩ e = Except.ok (s', v) := by
  cases c with
  | nil =>
    exact absurd (List.eq_nil_of_length_eq_zero (hlen.trans rfl)) hne
  | cons c0 cs =>
    have hdig : ∀ x ∈ v, x < cs.foldl max c0 := by
      intro x hx
      obtain ⟨i, hi, hxi⟩ := List.mem_iff_getElem.mp hx
      have hic : i < (c0 :: cs).length := hlen ▸ hi
      have hzlen : i < (v.zip (c0 :: cs)).length := by
        rw [List.length_zip]; omega
      have hp : (v[i], (c0 :: cs)[i]) ∈ v.zip (c0 :: cs) := by
        have hmem := List.getElem_mem hzlen
        rwa [List.getElem_zip] at hmem
      have hlt := hvc _ hp
      have hcm : (c0 :: cs)[i] ≤ cs.foldl max c0 :=
        le_pyMax_of_mem c0 cs _ (List.getElem_mem hic)
      omega
    refine ⟨⟨v.length, cs.foldl max c0, some (v.length, cs.foldl max c0)⟩,
      codeSum (cs.foldl max c0) v, rfl, ?_, ?_⟩
    · have hcond : ¬(v.length = 0 ∧ cs.foldl max c0 = 0) := by
        intro hc
        exact hne (List.eq_nil_of_length_eq_zero hc.1)
      show NaryEncoder.decode _ _ = _
      unfold NaryEncoder.decode
      rw [if_neg hcond]
      rw [decode_codeSum_roundTrip (cs.foldl max c0) v hdig]
    · show NaryEncoder.decode ⟨0, 0, some (v.length, cs.foldl max c0)⟩
        (codeSum (cs.foldl max c0) v) = _
      rw [decode_unset, decode_codeSum_roundTrip (cs.foldl max c0) v hdig]

/-- Witness for C1 at the spec's concrete scenario: indices `[1, 0]`,
cardinalities `[3, 2]`. -/
theorem naryCodec_roundTrip_witness :
    ∃ s' e, NaryEncoder.encode ⟨0, 0, none⟩ [1, 0] [3, 2] = Except.ok (s', e) ∧
      NaryEncoder.decode s' e = Except.ok (s', [1, 0]) ∧
      NaryEncoder.decode ⟨0, 0, s'.slot⟩ e = Except.ok (s', [1, 0]) :=
  naryCodec_roundTrip ⟨0, 0, none⟩ [1, 0] [3, 2] (by decide) (by decide) (by decide)

/-- C4: `encode` returns `Σ indices[i] * radix^i` where the radix is the
maximum of the supplied cardinality list (a member of the list that
bounds every member — never a stale or caller-supplied value: the result
does not depend on the incoming state `s`), and persists
`(length, radix)`; in particular `[1, 0]` with `[3, 2]` encodes to `1`. -/
theorem naryEncode_formula (s : NaryState) (l lm : List Nat) (hne : lm ≠ []) :
    (∃ s' e, NaryEncoder.encode s l lm = Except.ok (s', e) ∧
      s'.mx ∈ lm ∧ (∀ x ∈ lm, x ≤ s'.mx) ∧ s'.ln = l.length ∧
      s'.slot = some (l.length, s'.mx) ∧
      e = ((List.range l.length).map (fun i => l.getD i 0 * s'.mx ^ i)).sum) ∧
    NaryEncoder.encode ⟨0, 0, none⟩ [1, 0] [3, 2] =
      Except.ok (⟨2, 3, some (2, 3)⟩, 1) := by
  refine ⟨?_, rfl⟩
  cases lm with
  | nil => exact absurd rfl hne
  | cons m0 ms =>
    refine ⟨⟨l.length, ms.foldl max m0, some (l.length, ms.foldl max m0)⟩,
      codeSum (ms.foldl max m0) l, rfl, ?_, ?_, rfl, rfl,
      codeSum_eq_range_sum (ms.foldl max m0) l⟩
    · rcases foldl_max_mem ms m0 with h | h
      · rw [h]; exact List.mem_cons_self m0 ms
      · exact List.mem_cons_of_mem m0 h
    · intro x hx
      exact le_pyMax_of_mem m0 ms x hx

/-- Witness for C4. -/
theorem naryEncode_formula_witness :
    (∃ s' e, NaryEncoder.encode ⟨7, 9, some (1, 1)⟩ [1, 0] [3, 2] = Except.ok (s', e) ∧
      s'.mx ∈ [3, 2] ∧ (∀ x ∈ [3, 2], x ≤ s'.mx) ∧ s'.ln = 2 ∧
      s'.slot = some (2, s'.mx) ∧
      e = ((List.range 2).map (fun i => [1, 0].getD i 0 * s'.mx ^ i)).sum) ∧
    NaryEncoder.encode ⟨0, 0, none⟩ [1, 0] [3, 2] =
      Except.ok (⟨2, 3, some (2, 3)⟩, 1) :=
  naryEncode_formula ⟨7, 9, some (1, 1)⟩ [1, 0] [3, 2] (by decide)

/-- C5: decoding on a fresh codec (in-memory parameters both `0`) with no
persisted parameter file fails with `FileNotFoundError` (the spec's
`MissingParameters`). -/
theorem naryDecode_missingParams (s : NaryState) (e : Nat) (h1 : s.ln = 0)
    (h2 : s.mx = 0) (h3 : s.slot = none) :
    NaryEncoder.decode s e = Except.error PyError.fileNotFound := by
  unfold NaryEncoder.decode
  rw [if_pos ⟨h1, h2⟩, h3]

/-- Witness for C5. -/
theorem naryDecode_missingParams_witness :
    NaryEncoder.decode ⟨0, 0, none⟩ 7 = Except.error PyError.fileNotFound :=
  naryDecode_missingParams ⟨0, 0, none⟩ 7 rfl rfl rfl

/-- C8: encoding is deterministic and independent of prior codec state —
two calls with the same index and cardinality lists return identical
results (same integer, same persisted `(length, radix)` slot), whatever
each codec's in-memory fields and persisted slot held before. -/
theorem naryEncode_deterministic (s₁ s₂ : NaryState) (l lm : List Nat) :
    NaryEncoder.encode s₁ l lm = NaryEncoder.encode s₂ l lm := rfl

/-- C9: reverse round trip.  With in-memory parameters in force
(`length ≥ 1`, `radix ≥ 1`), decoding any `e < radix ^ length` yields a
list of exactly `length` digits, each below `radix`, whose weighted sum
`Σ d[i] * radix^i` reconstructs `e`. -/
theorem naryDecode_digits (s : NaryState) (e : Nat) (hln : 1 ≤ s.ln)
    (hmx : 1 ≤ s.mx) (he : e < s.mx ^ s.ln) :
    ∃ d, NaryEncoder.decode s e = Except.ok (s, d) ∧ d.length = s.ln ∧
      (∀ x ∈ d, x < s.mx) ∧
      ((List.range s.ln).map (fun i => d.getD i 0 * s.mx ^ i)).sum = e := by
  have hcond : ¬(s.ln = 0 ∧ s.mx = 0) := by omega
  have hd : (decodeLoop s.mx e s.ln).reverse =
      (List.range s.ln).map (fun i => e / s.mx ^ i % s.mx) := by
    rw [decodeLoop_eq s.mx s.ln e he, ← List.map_reverse, List.reverse_reverse]
  refine ⟨(decodeLoop s.mx e s.ln).reverse, ?_, ?_, ?_, ?_⟩
  · unfold NaryEncoder.decode
    rw [if_neg hcond]
  · rw [hd, List.length_map, List.length_range]
  · intro x hx
    rw [hd, List.mem_map] at hx
    obtain ⟨i, _, rfl⟩ := hx
    exact Nat.mod_lt _ (by omega)
  · rw [hd]
    have hc : (List.range s.ln).map
        (fun i => ((List.range s.ln).map (fun j => e / s.mx ^ j % s.mx)).getD i 0 * s.mx ^ i) =
        (List.range s.ln).map (fun i => e / s.mx ^ i % s.mx * s.mx ^ i) := by
      apply List.map_congr_left
      intro i hi
      have hi' : i < s.ln := List.mem_range.mp hi
      have hlen' : i < ((List.range s.ln).map (fun j => e / s.mx ^ j % s.mx)).length := by
        rw [List.length_map, List.length_range]; exact hi'
      rw [List.getD_eq_getElem _ _ hlen', List.getElem_map, List.getElem_range]
    rw [hc, sum_digits_reconstruct s.mx (by omega) s.ln e he]

/-- Witness for C9: `length = 2`, `radix = 3`, `e = 5` (digits `[2, 1]`). -/
theorem naryDecode_digits_witness :
    ∃ d, NaryEncoder.decode ⟨2, 3, none⟩ 5 = Except.ok (⟨2, 3, none⟩, d) ∧
      d.length = 2 ∧ (∀ x ∈ d, x < 3) ∧
      ((List.range 2).map (fun i => d.getD i 0 * 3 ^ i)).sum = 5 :=
  naryDecode_digits ⟨2, 3, none⟩ 5 (by decide) (by decide) (by decide)

/-- `CategoricalEncoder`: holds the ordered category dictionary as a list
of (category name, ordered value list) pairs, mirroring the
`OrderedDict` the source receives. -/
structure CategoricalEncoder where
  category_dict : List (String × List String)
deriving DecidableEq

/-- Python list subscription `v[i]` with an `int` index: an index in
`[0, len(v))` selects directly; a negative index wraps once by adding
`len(v)` and must then land in `[0, len(v))`; anything else raises
`IndexError`. -/
def pyGetItem (v : List String) (i : Int) : Except PyError String :=
  if 0 ≤ i ∧ i < (v.length : Int) then Except.ok (v.getD i.toNat "")
  else if i < 0 ∧ 0 ≤ i + (v.length : Int) then
    Except.ok (v.getD (i + (v.length : Int)).toNat "")
  else Except.error PyError.indexError

/-- Python `v.index(x)`: position of the first occurrence of `x` in `v`,
raising `ValueError` when `x` does not occur. -/
def pyIndex (v : List String) (x : String) : Except PyError Nat :=
  if x ∈ v then Except.ok (v.indexOf x)
  else Except.error (PyError.valueError ("is not in list"))

/-- A Python list comprehension whose body may raise: elements are
produced left to right and the first exception aborts the whole
comprehension. -/
def listMapE {α β : Type} (f : α → Except PyError β) : List α → Except PyError (List β)
  | [] => Except.ok []
  | a :: as =>
    match f a with
    | Except.error e => Except.error e
    | Except.ok b =>
      match listMapE f as with
      | Except.error e => Except.error e
      | Except.ok bs => Except.ok (b :: bs)

/-- `CategoricalEncoder.encode(category_list)`: zips the chosen values
with the per-category value lists (`zip` truncates to the shorter), looks
each value up with `list.index`, and pairs the index list with the list
of all per-category cardinalities. -/
def CategoricalEncoder.encode (ce : CategoricalEncoder) (category_list : List String) :
    Except PyError (List Nat × List Nat) :=
  match listMapE (fun p => pyIndex p.2 p.1)
      (category_list.zip (ce.category_dict.map Prod.snd)) with
  | Except.error e => Except.error e
  | Except.ok lst => Except.ok (lst, (ce.category_dict.map Prod.snd).map List.length)

/-- `CategoricalEncoder.decode(category_indices)`: zips the supplied
indices with the per-category value lists and subscripts each list. -/
def CategoricalEncoder.decode (ce : CategoricalEncoder) (category_indices : List Int) :
    Except PyError (List String) :=
  listMapE (fun p => pyGetItem p.2 p.1)
    (category_indices.zip (ce.category_dict.map Prod.snd))

/-! ### Helper lemmas for the categorical translator -/

theorem listMapE_ok_iff {α β : Type} (f : α → Except PyError β) (l : List α) :
    (∃ bs, listMapE f l = Except.ok bs) ↔ ∀ a ∈ l, ∃ b, f a = Except.ok b := by
  induction l with
  | nil => simp [listMapE]
  | cons a as ih =>
    cases hfa : f a with
    | error e =>
      simp only [listMapE, hfa]
      constructor
      · rintro ⟨bs, hbs⟩; cases hbs
      · intro h
        obtain ⟨b, hb⟩ := h a (List.mem_cons_self a as)
        rw [hfa] at hb; cases hb
    | ok b =>
      cases hrest : listMapE f as with
      | error e =>
        simp only [listMapE, hfa, hrest]
        constructor
        · rintro ⟨bs, hbs⟩; cases hbs
        · intro h
          obtain ⟨bs, hbs⟩ := ih.mpr (fun x hx => h x (List.mem_cons_of_mem a hx))
          rw [hrest] at hbs; cases hbs
      | ok bs =>
        simp only [listMapE, hfa, hrest]
        constructor
        · intro _ x hx
          rcases List.mem_cons.mp hx with rfl | hmem
          · exact ⟨b, hfa⟩
          · exact ih.mp ⟨bs, hrest⟩ x hmem
        · intro _; exact ⟨b :: bs, rfl⟩

theorem listMapE_eq_map {α β : Type} (f : α → Except PyError β) (g : α → β)
    (l : List α) (h : ∀ a ∈ l, f a = Except.ok (g a)) :
    listMapE f l = Except.ok (l.map g) := by
  induction l with
  | nil => rfl
  | cons a as ih =>
    have ha := h a (List.mem_cons_self a as)
    have has := ih (fun x hx => h x (List.mem_cons_of_mem a hx))
    simp only [listMapE, ha, has, List.map_cons]

theorem pyGetItem_ok_iff (v : List String) (i : Int) :
    (∃ b, pyGetItem v i = Except.ok b) ↔
      -(v.length : Int) ≤ i ∧ i < (v.length : Int) := by
  unfold pyGetItem
  split_ifs with h1 h2
  · exact iff_of_true ⟨_, rfl⟩ (by omega)
  · exact iff_of_true ⟨_, rfl⟩ (by omega)
  · refine iff_of_false ?_ (by omega)
    rintro ⟨b, hb⟩; cases hb

theorem pyGetItem_nonneg (v : List String) (i : Int) (h0 : 0 ≤ i)
    (hlt : i < (v.length : Int)) : pyGetItem v i = Except.ok (v.getD i.toNat "") := by
  unfold pyGetItem
  rw [if_pos ⟨h0, hlt⟩]

theorem pyIndex_of_mem (v : List String) (x : String) (h : x ∈ v) :
    pyIndex v x = Except.ok (v.indexOf x) := by
  unfold pyIndex
  rw [if_pos h]

theorem catEncode_eq_of_listMapE (ce : CategoricalEncoder) (sel : List String)
    (lst : List Nat)
    (h : listMapE (fun p => pyIndex p.2 p.1)
      (sel.zip (ce.category_dict.map Prod.snd)) = Except.ok lst) :
    CategoricalEncoder.encode ce sel =
      Except.ok (lst, (ce.category_dict.map Prod.snd).map List.length) := by
  unfold CategoricalEncoder.encode
  rw [h]

/-- C3 counterexample: with table `{cat: [x, y]}` the supplied index `-1`
lies outside `[0, 2)`, yet `decode` does not raise — Python's negative
indexing returns the last element — refuting the claimed
"raises if and only if some index is outside `[0, len)`". -/
theorem catDecode_negIndex_counterexample :
    CategoricalEncoder.decode ⟨[("cat", ["x", "y"])]⟩ [-1] = Except.ok ["y"] ∧
      ¬(0 ≤ (-1 : Int) ∧ (-1 : Int) < 2) := by
  exact ⟨rfl, by omega⟩

/-- C3 (amended): `decode` succeeds iff every supplied index, paired
positionally with a category by `zip`, lies in `[-len, len)` of that
category's value list (Python indexing admits one negative wrap);
otherwise it raises `IndexError`.  When all paired indices lie in
`[0, len)`, it returns, per paired category, the value at that index. -/
theorem catDecode_ok_iff (ce : CategoricalEncoder) (idxs : List Int) :
    ((∃ out, CategoricalEncoder.decode ce idxs = Except.ok out) ↔
      ∀ p ∈ idxs.zip (ce.category_dict.map Prod.snd),
        -(p.2.length : Int) ≤ p.1 ∧ p.1 < (p.2.length : Int)) ∧
    ((∀ p ∈ idxs.zip (ce.category_dict.map Prod.snd),
        0 ≤ p.1 ∧ p.1 < (p.2.length : Int)) →
      CategoricalEncoder.decode ce idxs =
        Except.ok ((idxs.zip (ce.category_dict.map Prod.snd)).map
          (fun p => p.2.getD p.1.toNat ""))) := by
  constructor
  · unfold CategoricalEncoder.decode
    rw [listMapE_ok_iff]
    constructor
    · intro h p hp
      exact (pyGetItem_ok_iff p.2 p.1).mp (h p hp)
    · intro h p hp
      exact (pyGetItem_ok_iff p.2 p.1).mpr (h p hp)
  · intro h
    unfold CategoricalEncoder.decode
    exact listMapE_eq_map _ _ _
      (fun p hp => pyGetItem_nonneg p.2 p.1 (h p hp).1 (h p hp).2)

/-- Witness for C3 (amended), on the spec's concrete table. -/
theorem catDecode_ok_iff_witness :
    CategoricalEncoder.decode ⟨[("m", ["VW", "Toyota"]), ("b", ["coupe"])]⟩ [1, 0] =
      Except.ok ["Toyota", "coupe"] :=
  (catDecode_ok_iff ⟨[("m", ["VW", "Toyota"]), ("b", ["coupe"])]⟩ [1, 0]).2 (by decide)

/-- C10 counterexample: the selection `["zzz"]` is shorter than the
two-category table, yet `encode` fails (`list.index` raises
`ValueError`), refuting the unconditional "encode does not fail". -/
theorem catEncode_short_counterexample :
    CategoricalEncoder.encode ⟨[("a", ["x"]), ("b", ["y"])]⟩ ["zzz"] =
      Except.error (PyError.valueError ("is not in list")) ∧
      (["zzz"] : List String).length < 2 := by
  exact ⟨rfl, by decide⟩

/-- C10 (amended): when the selection list is shorter than the table and
every selected value occurs in its positionally paired category,
`encode` succeeds; the index vector is only as long as the selection
list, while the cardinality vector has exactly one entry per category of
the table. -/
theorem catEncode_truncates (ce : CategoricalEncoder) (sel : List String)
    (hlen : sel.length < ce.category_dict.length)
    (hmem : ∀ p ∈ sel.zip (ce.category_dict.map Prod.snd), p.1 ∈ p.2) :
    ∃ lst lm, CategoricalEncoder.encode ce sel = Except.ok (lst, lm) ∧
      lst.length = sel.length ∧ lm.length = ce.category_dict.length := by
  have hmap : listMapE (fun p => pyIndex p.2 p.1)
      (sel.zip (ce.category_dict.map Prod.snd)) =
      Except.ok ((sel.zip (ce.category_dict.map Prod.snd)).map
        (fun p => p.2.indexOf p.1)) :=
    listMapE_eq_map _ _ _ (fun p hp => pyIndex_of_mem p.2 p.1 (hmem p hp))
  refine ⟨(sel.zip (ce.category_dict.map Prod.snd)).map (fun p => p.2.indexOf p.1),
    (ce.category_dict.map Prod.snd).map List.length,
    catEncode_eq_of_listMapE ce sel _ hmap, ?_, ?_⟩
  · rw [List.length_map, List.length_zip, List.length_map]
    omega
  · rw [List.length_map, List.length_map]

/-- Witness for C10 (amended). -/
theorem catEncode_truncates_witness :
    ∃ lst lm, CategoricalEncoder.encode ⟨[("a", ["x", "y"]), ("b", ["y"])]⟩ ["y"] =
      Except.ok (lst, lm) ∧ lst.length = 1 ∧ lm.length = 2 :=
  catEncode_truncates ⟨[("a", ["x", "y"]), ("b", ["y"])]⟩ ["y"] (by decide) (by decide)

/-! ### Adaptive symbol generator (`create_qr_code`) -/

/-- Characters matched by the regex class `[a-z]`. -/
def isLowerAZ (c : Char) : Bool := decide ('a' ≤ c) && decide (c ≤ 'z')

/-- Characters matched by the regex class `\d`. -/
def isDigit09 (c : Char) : Bool := decide ('0' ≤ c) && decide (c ≤ '9')

/-- Matching a literal pattern at the start of the input (the literal
part of an anchored `re.match`): returns the unmatched rest of the input
on success. -/
def stripLit : List Char → List Char → Option (List Char)
  | [], cs => some cs
  | _ :: _, [] => none
  | p :: ps, c :: cs => if p = c then stripLit ps cs else none

/-- Python `int` applied to the digit string captured by `(\d+)`. -/
def digitsToNat (cs : List Char) : Nat :=
  cs.foldl (fun n c => n * 10 + (c.toNat - 48)) 0

/-- First classification regex of `create_qr_code`: `re.match` of
`The content provided cannot be encoded with the mode {mode}, it can
only be encoded as ([a-z]+)\.` — a literal prefix (with the current mode
interpolated), then a maximal non-empty lowercase run that must be
followed by a literal dot; the end of the message is unconstrained.
Returns the captured group. -/
def classifyMode (mode : String) (msg : String) : Option String :=
  match stripLit ("The content provided cannot be encoded with the mode " ++ mode ++
      ", it can only be encoded as ").toList msg.toList with
  | none => none
  | some rest =>
    if rest.takeWhile isLowerAZ ≠ [] ∧
        (rest.dropWhile isLowerAZ).head? = some '.' then
      some (String.mk (rest.takeWhile isLowerAZ))
    else none

/-- Second classification regex of `create_qr_code`: `re.match` of
`The data will not fit inside a version {version} code with the given
encoding and error level \(the code must be at least a version (\d+)\)\.`
Returns the captured group as an integer. -/
def classifyVersion (version : Nat) (msg : String) : Option Nat :=
  match stripLit ("The data will not fit inside a version " ++ toString version ++
      " code with the given encoding and error level (the code must be at least a version ").toList
      msg.toList with
  | none => none
  | some rest =>
    match rest.dropWhile isDigit09 with
    | ')' :: '.' :: _ =>
      if rest.takeWhile isDigit09 ≠ [] then
        some (digitsToNat (rest.takeWhile isDigit09))
      else none
    | _ => none

/-- Terminal outcome of `create_qr_code`, recording the final `mode` and
`version` and how many `pyqrcode.create` attempts were made. -/
inductive QrResult where
  | success (mode : String) (version : Nat) (attempts : Nat)
  | maxIterationExceeded (attempts : Nat)
  | fatal (msg : String) (attempts : Nat)
deriving DecidableEq

/-- The `while True` loop of `create_qr_code`, with `pyqrcode.create`
(for the fixed payload and error-correction level) abstracted as
`oracle mode version` (`none` = success, `some msg` = exception carrying
message `msg`).  `budget` counts the passes still allowed before the
`itercnt >= max_iteration` guard fires: the Python counter starts at
`0`, is incremented at the top of each pass and checked *before* the
attempt, so the loop admits exactly `max_iteration - 1` attempts and
`budget` starts at `max_iteration - 1`.  On rejection with `adjust`
disabled the exception is re-raised (`fatal`); otherwise the mode regex
is tried first, then the version regex, and an unclassified message is
re-raised. -/
def qrLoop (oracle : String → Nat → Option String) (adjust : Bool) :
    Nat → String → Nat → Nat → QrResult
  | 0, _, _, attempts => QrResult.maxIterationExceeded attempts
  | budget + 1, mode, version, attempts =>
    match oracle mode version with
    | none => QrResult.success mode version (attempts + 1)
    | some msg =>
      if adjust = false then QrResult.fatal msg (attempts + 1)
      else
        match classifyMode mode msg with
        | some m => qrLoop oracle adjust budget m version (attempts + 1)
        | none =>
          match classifyVersion version msg with
          | some v => qrLoop oracle adjust budget mode v (attempts + 1)
          | none => QrResult.fatal msg (attempts + 1)

/-- `create_qr_code(value, error=..., version=..., mode=..., adjust=...,
max_iteration=...)`: runs the retry loop from the caller's initial mode
and version; the final `code.png` rendering is folded into the success
state. -/
def create_qr_code (oracle : String → Nat → Option String) (adjust : Bool)
    (mode : String) (version : Nat) (max_iteration : Nat) : QrResult :=
  qrLoop oracle adjust (max_iteration - 1) mode version 0

theorem stripLit_append (p rest : List Char) : stripLit p (p ++ rest) = some rest := by
  induction p with
  | nil => rfl
  | cons c cs ih => simp [stripLit, ih]

/-- An oracle that rejects every attempt with a well-formed mode-mismatch
message (in the exact pyqrcode template for the mode just attempted)
suggesting mode `binary` — recognized every time, never converging. -/
def stubbornOracle (m : String) (v : Nat) : Option String :=
  some ("The content provided cannot be encoded with the mode " ++ m ++
    ", it can only be encoded as " ++ "binary.")

theorem classifyMode_stubborn (m : String) :
    classifyMode m ("The content provided cannot be encoded with the mode " ++ m ++
      ", it can only be encoded as " ++ "binary.") = some ("binary") := by
  unfold classifyMode
  have hdata : ("The content provided cannot be encoded with the mode " ++ m ++
      ", it can only be encoded as " ++ "binary.").toList =
      ("The content provided cannot be encoded with the mode " ++ m ++
      ", it can only be encoded as ").toList ++ ("binary.").toList :=
    String.data_append _ _
  rw [hdata, stripLit_append]
  rfl

/-- C2 counterexample: with `max_iteration = 2` and an oracle whose every
rejection carries a recognized correction, `create_qr_code` fails with
`MaxIterationExceeded` after exactly `1` encoder attempt, not after the
`2` the claim asserts: the guard `itercnt >= max_iteration` fires before
the `max_iteration`-th attempt. -/
theorem qr_bound_counterexample :
    create_qr_code stubbornOracle true ("binary") 1 2 =
      QrResult.maxIterationExceeded 1 ∧ (1 : Nat) ≠ 2 := by
  exact ⟨rfl, by decide⟩

/-- C2 (amended): when every attempt is rejected with a recognized
(classified) correction, `create_qr_code` with adaptation enabled fails
with `MaxIterationExceeded` after exactly `max_iteration - 1` encoder
attempts — the counter is incremented and checked at the top of each
pass, before the attempt. -/
theorem qr_maxIteration_bound (oracle : String → Nat → Option String)
    (mode : String) (version : Nat) (max_iteration : Nat)
    (hrej : ∀ m v, ∃ msg, oracle m v = some msg ∧
      (classifyMode m msg ≠ none ∨ classifyVersion v msg ≠ none)) :
    create_qr_code oracle true mode version max_iteration =
      QrResult.maxIterationExceeded (max_iteration - 1) := by
  suffices h : ∀ budget m v a, qrLoop oracle true budget m v a =
      QrResult.maxIterationExceeded (a + budget) by
    have hmain := h (max_iteration - 1) mode version 0
    rw [Nat.zero_add] at hmain
    exact hmain
  intro budget
  induction budget with
  | zero =>
    intro m v a
    simp [qrLoop]
  | succ b ih =>
    intro m v a
    obtain ⟨msg, hmsg, hcl⟩ := hrej m v
    cases hcm : classifyMode m msg with
    | some m' =>
      have hstep : qrLoop oracle true (b + 1) m v a =
          qrLoop oracle true b m' v (a + 1) := by
        simp [qrLoop, hmsg, hcm]
      rw [hstep, ih m' v (a + 1)]
      have harith : a + 1 + b = a + (b + 1) := by omega
      rw [harith]
    | none =>
      cases hcv : classifyVersion v msg with
      | some v' =>
        have hstep : qrLoop oracle true (b + 1) m v a =
            qrLoop oracle true b m v' (a + 1) := by
          simp [qrLoop, hmsg, hcm, hcv]
        rw [hstep, ih m v' (a + 1)]
        have harith : a + 1 + b = a + (b + 1) := by omega
        rw [harith]
      | none =>
        exfalso
        rcases hcl with hc | hc
        · exact hc hcm
        · exact hc hcv

/-- Witness for C2 (amended): the stubborn oracle with
`max_iteration = 5` produces `MaxIterationExceeded` after 4 attempts. -/
theorem qr_maxIteration_bound_witness :
    create_qr_code stubbornOracle true ("binary") 1 5 =
      QrResult.maxIterationExceeded 4 :=
  qr_maxIteration_bound stubbornOracle ("binary") 1 5
    (fun m v => ⟨_, rfl, Or.inl (by rw [classifyMode_stubborn m]; simp)⟩)

/-- C6: for an oracle that rejects the first attempt (mode `binary`)
with a message the mode regex classifies as requiring `numeric`, and
accepts in mode `numeric`, `create_qr_code` with adaptation enabled and
a sufficient iteration budget makes exactly two attempts (one retry) and
succeeds with mode `numeric` and the unchanged version. -/
theorem qr_mode_adaptation (oracle : String → Nat → Option String)
    (version : Nat) (max_iteration : Nat) (msg : String)
    (h1 : oracle ("binary") version = some msg)
    (h2 : classifyMode ("binary") msg = some ("numeric"))
    (h3 : oracle ("numeric") version = none)
    (hmi : 3 ≤ max_iteration) :
    create_qr_code oracle true ("binary") version max_iteration =
      QrResult.success ("numeric") version 2 := by
  obtain ⟨k, hk⟩ : ∃ k, max_iteration - 1 = k + 1 + 1 := ⟨max_iteration - 3, by omega⟩
  unfold create_qr_code
  rw [hk]
  simp [qrLoop, h1, h2, h3]

/-- An oracle that rejects mode `binary` once with the pyqrcode
mode-mismatch message naming `numeric`, and accepts any other mode. -/
def onceOracle (m : String) (v : Nat) : Option String :=
  if m = ("binary") then
    some ("The content provided cannot be encoded with the mode binary, it can only be encoded as numeric.")
  else none

/-- Witness for C6. -/
theorem qr_mode_adaptation_witness :
    create_qr_code onceOracle true ("binary") 1 10 =
      QrResult.success ("numeric") 1 2 :=
  qr_mode_adaptation onceOracle 1 10
    ("The content provided cannot be encoded with the mode binary, it can only be encoded as numeric.")
    rfl rfl rfl (by decide)

/-- C7: with adaptation disabled, the first rejection of any kind — the
oracle's message is arbitrary, classified or not — is re-raised to the
caller after exactly one encoder attempt; no retry happens.  (A first
rejection presupposes a first attempt, hence `max_iteration ≥ 2`, since
the guard fires before any attempt otherwise.) -/
theorem qr_noAdjust_fatal (oracle : String → Nat → Option String)
    (mode : String) (version : Nat) (max_iteration : Nat) (msg : String)
    (h : oracle mode version = some msg) (hmi : 2 ≤ max_iteration) :
    create_qr_code oracle false mode version max_iteration =
      QrResult.fatal msg 1 := by
  obtain ⟨k, hk⟩ : ∃ k, max_iteration - 1 = k + 1 := ⟨max_iteration - 2, by omega⟩
  unfold create_qr_code
  rw [hk]
  simp [qrLoop, h]

/-- An oracle that always rejects with an unclassifiable message. -/
def alwaysBoom (m : String) (v : Nat) : Option String := some ("boom")

/-- Witness for C7. -/
theorem qr_noAdjust_fatal_witness :
    create_qr_code alwaysBoom false ("binary") 1 10 = QrResult.fatal ("boom") 1 :=
  qr_noAdjust_fatal alwaysBoom ("binary") 1 10 ("boom") rfl (by decide)
